import Mathlib

/-!
Verification development for the job-market dashboard pipeline (`src/app.py`).

The Python source is shallowly embedded: pure functions become Lean
functions, pandas column operations become operations on lists of row
records, floating-point numbers are modelled as exact rationals, and
Python `None`/`NaN` cells are modelled with `Option`.
-/

/- ================================================================
   Numeric token scanner: embedding of
   `re.findall(r'(\d+(?:\.\d+)?)', text)` (src/app.py lines 11 and 21).
   The regex performs a left-to-right scan with maximal munch: at each
   digit it consumes a maximal digit run, then, when a dot followed by a
   digit comes next, the dot and a second maximal digit run.
   `Char.isDigit` models `\d` for ASCII digits.
   ================================================================ -/

/-- The token matched by `\d+(?:\.\d+)?` at the head of `l`
(meaningful when `l` starts with a digit). -/
def numToken (l : List Char) : List Char :=
  match l.dropWhile Char.isDigit with
  | '.' :: d :: r2 =>
    if d.isDigit then
      l.takeWhile Char.isDigit ++ '.' :: (d :: r2).takeWhile Char.isDigit
    else
      l.takeWhile Char.isDigit
  | _ => l.takeWhile Char.isDigit

/-- The remainder of `l` after the token matched at its head. -/
def numRest (l : List Char) : List Char :=
  match l.dropWhile Char.isDigit with
  | '.' :: d :: r2 =>
    if d.isDigit then (d :: r2).dropWhile Char.isDigit else '.' :: d :: r2
  | r => r

theorem numToken_append_numRest (l : List Char) :
    numToken l ++ numRest l = l := by
  have hl := List.takeWhile_append_dropWhile (p := Char.isDigit) (l := l)
  unfold numToken numRest
  split
  · next d r2 h =>
    by_cases hd : d.isDigit
    · have h2 := List.takeWhile_append_dropWhile (p := Char.isDigit) (l := d :: r2)
      simp only [hd, if_true]
      rw [List.append_assoc, List.cons_append, h2, ← h, hl]
    · simp only [hd]
      simp only [Bool.false_eq_true, if_false]
      rw [← h]
      exact hl
  · exact hl

theorem length_dropWhile_le (p : α → Bool) (l : List α) :
    (l.dropWhile p).length ≤ l.length :=
  (List.dropWhile_sublist p).length_le

theorem numRest_length_lt (c : Char) (cs : List Char) (hc : c.isDigit = true) :
    (numRest (c :: cs)).length < (c :: cs).length := by
  have hdrop : (c :: cs).dropWhile Char.isDigit = cs.dropWhile Char.isDigit := by
    simp [List.dropWhile_cons, hc]
  have hlen : (cs.dropWhile Char.isDigit).length ≤ cs.length :=
    length_dropWhile_le _ _
  unfold numRest
  split
  · next d r2 h =>
    rw [hdrop] at h
    have hlen2 : r2.length + 2 ≤ cs.length := by
      have h4 := h ▸ hlen
      simpa using h4
    by_cases hd : d.isDigit
    · have h3 : ((d :: r2).dropWhile Char.isDigit).length ≤ (d :: r2).length :=
        length_dropWhile_le _ _
      simp only [hd, if_true]
      simp only [List.length_cons] at h3 ⊢
      omega
    · simp only [hd]
      simp only [Bool.false_eq_true, if_false, List.length_cons]
      omega
  · rw [hdrop, List.length_cons]
    omega

/-- Fuel-based scanner body; the fuel only serves structural recursion
and is irrelevant as soon as it bounds the length of the input. -/
def findNumbersAux : Nat → List Char → List (List Char)
  | 0, _ => []
  | _ + 1, [] => []
  | fuel + 1, c :: cs =>
    if c.isDigit then
      numToken (c :: cs) :: findNumbersAux fuel (numRest (c :: cs))
    else
      findNumbersAux fuel cs

/-- `re.findall(r'(\d+(?:\.\d+)?)', text)` over the characters of `text`:
scan left to right; at each digit take the maximal numeric token and
continue after it; skip every other character. -/
def findNumbers (l : List Char) : List (List Char) :=
  findNumbersAux l.length l

theorem findNumbersAux_irrel :
    ∀ (n f1 f2 : Nat) (l : List Char), l.length ≤ n → l.length ≤ f1 →
      l.length ≤ f2 → findNumbersAux f1 l = findNumbersAux f2 l := by
  intro n
  induction n with
  | zero =>
    intro f1 f2 l hn _ _
    have hl : l = [] := List.length_eq_zero.mp (Nat.le_zero.mp hn)
    subst hl
    cases f1 <;> cases f2 <;> rfl
  | succ n ih =>
    intro f1 f2 l hn h1 h2
    cases l with
    | nil => cases f1 <;> cases f2 <;> rfl
    | cons c cs =>
      simp only [List.length_cons] at hn h1 h2
      cases f1 with
      | zero => omega
      | succ g1 =>
        cases f2 with
        | zero => omega
        | succ g2 =>
          by_cases hc : c.isDigit
          · have hr : (numRest (c :: cs)).length ≤ cs.length := by
              have := numRest_length_lt c cs hc
              simp only [List.length_cons] at this
              omega
            simp only [findNumbersAux, hc, if_true]
            rw [ih g1 g2 (numRest (c :: cs)) (by omega) (by omega) (by omega)]
          · simp only [findNumbersAux, hc]
            simp only [Bool.false_eq_true, if_false]
            exact ih g1 g2 cs (by omega) (by omega) (by omega)

theorem findNumbers_nil : findNumbers [] = [] := rfl

theorem findNumbers_cons_digit (c : Char) (cs : List Char) (hc : c.isDigit = true) :
    findNumbers (c :: cs) = numToken (c :: cs) :: findNumbers (numRest (c :: cs)) := by
  have hr : (numRest (c :: cs)).length ≤ cs.length := by
    have := numRest_length_lt c cs hc
    simp only [List.length_cons] at this
    omega
  show findNumbersAux (cs.length + 1) (c :: cs) = _
  simp only [findNumbersAux, hc, if_true]
  rw [findNumbersAux_irrel cs.length cs.length (numRest (c :: cs)).length
    (numRest (c :: cs)) hr hr (le_refl _)]
  rfl

theorem findNumbers_cons_nondigit (c : Char) (cs : List Char) (hc : ¬ c.isDigit = true) :
    findNumbers (c :: cs) = findNumbers cs := by
  show findNumbersAux (cs.length + 1) (c :: cs) = _
  simp only [findNumbersAux, hc]
  simp only [Bool.not_eq_true] at hc
  simp only [hc, Bool.false_eq_true, if_false]
  exact findNumbersAux_irrel (cs.length + 1) cs.length cs.length cs
    (by omega) (le_refl _) (le_refl _)

/-- Numeric value of an ASCII digit character. -/
def digitVal (c : Char) : Nat := c.toNat - 48

/-- Value of a digit run, most significant digit first. -/
def digitsToNat (l : List Char) : Nat :=
  l.foldl (fun a c => 10 * a + digitVal c) 0

/-- Python `float()` applied to a matched numeric token: the exact
rational value of the decimal literal.  The binary rounding of Python
floats is abstracted to exact rational arithmetic. -/
def tokenToRat (t : List Char) : ℚ :=
  if (t.dropWhile Char.isDigit).head? = some '.' then
    (digitsToNat (t.takeWhile Char.isDigit) : ℚ) +
      (digitsToNat (t.dropWhile Char.isDigit).tail : ℚ) /
        (10 : ℚ) ^ (t.dropWhile Char.isDigit).tail.length
  else
    (digitsToNat (t.takeWhile Char.isDigit) : ℚ)

/-- A wellformed numeral: a nonempty digit run, optionally followed by a
dot and a second nonempty digit run.  This is the language of the regex
`\d+(?:\.\d+)?`. -/
def isNumeral (t : List Char) : Bool :=
  decide (t.takeWhile Char.isDigit ≠ []) &&
    (decide (t.dropWhile Char.isDigit = []) ||
      (decide ((t.dropWhile Char.isDigit).head? = some '.') &&
        decide ((t.dropWhile Char.isDigit).tail ≠ []) &&
        (t.dropWhile Char.isDigit).tail.all Char.isDigit))

/- ================================================================
   Field parsers (src/app.py lines 9-26).
   ================================================================ -/

/-- The result row produced by `process_salary`: the `pd.Series` with
keys `min_salary`, `max_salary`, `avg_salary`; `None` becomes `none`. -/
structure SalaryInfo where
  min_salary : Option ℚ
  max_salary : Option ℚ
  avg_salary : Option ℚ
deriving DecidableEq

/-- `process_salary` (src/app.py lines 9-17): extract the numeric tokens
of the text; with at least two tokens the first two become `min_salary`
and `max_salary` and `avg_salary` is their mean; otherwise all three
fields are `None`.  The Python `str()` coercion is the identity on the
text inputs modelled here. -/
def process_salary (salary_range : String) : SalaryInfo :=
  match findNumbers salary_range.data with
  | a :: b :: _ =>
    { min_salary := some (tokenToRat a)
      max_salary := some (tokenToRat b)
      avg_salary := some ((tokenToRat a + tokenToRat b) / 2) }
  | _ => { min_salary := none, max_salary := none, avg_salary := none }

/-- A Python value as it can occur in a raw dataframe cell: a string, the
`None` object, the float `NaN` used by pandas for missing cells, or an
integer (a non-string value a numeric column yields). -/
inductive PyVal where
  | pyStr (s : String)
  | pyNone
  | pyNaN
  | pyInt (n : Int)
deriving DecidableEq

/-- Python `str()` on a raw cell value: identity on strings, the textual
renderings `None`, `nan` and decimal digits otherwise. -/
def pyToStr : PyVal → String
  | .pyStr s => s
  | .pyNone => "None"
  | .pyNaN => "nan"
  | .pyInt n => toString n

/-- `process_experience` (src/app.py lines 20-26): extract the numeric
tokens of `str(exp)`; two or more tokens give the mean of the first two,
exactly one gives its value, zero gives `None`. -/
def process_experience (exp : PyVal) : Option ℚ :=
  match findNumbers (pyToStr exp).data with
  | a :: b :: _ => some ((tokenToRat a + tokenToRat b) / 2)
  | [a] => some (tokenToRat a)
  | [] => none

/- ================================================================
   A computable stable sort.  pandas sorts through numpy argsort whose
   introsort degenerates to a stable insertion sort on the small arrays
   this dashboard produces; a descending `sort_values` reverses the
   ascending argsort (`nargsort`), which reverses the relative order of
   tied elements.  `stSort` is a stable ascending sort: a later element
   is inserted after the already placed elements the comparator considers
   less than or equal to it.
   ================================================================ -/

/-- Insert `x` after every element `y` of the (sorted) list with `le y x`. -/
def stInsert (le : α → α → Bool) (x : α) : List α → List α
  | [] => [x]
  | y :: ys => if le y x then y :: stInsert le x ys else x :: y :: ys

/-- Stable ascending insertion sort: fold the input from the left,
inserting each element after its equals. -/
def stSort (le : α → α → Bool) (l : List α) : List α :=
  l.foldl (fun acc x => stInsert le x acc) []

/-- First-occurrence deduplication, preserving encounter order (the key
order a hash-based grouping produces before any sorting). -/
def dedupFE [DecidableEq α] (l : List α) : List α :=
  l.foldl (fun acc x => if x ∈ acc then acc else acc ++ [x]) []

/- ================================================================
   Filter Engine (src/app.py lines 100-107).
   ================================================================ -/

/-- The columns of a row the sidebar filters read.  Dates are modelled
as integers (e.g. days since an epoch); only their order matters. -/
structure JobRow where
  postedDate : Int
  jobLocation : String
  companySize : String
  jobType : String
deriving DecidableEq

/-- The user-selected criteria: the two ends of the date input and the
three multiselect value lists. -/
structure FilterCriteria where
  dateLower : Int
  dateUpper : Int
  locationSet : List String
  companySizeSet : List String
  jobTypeSet : List String

/-- The boolean mask of src/app.py lines 100-106: conjunction of the two
date bounds and the three `isin` membership tests. -/
def rowMask (c : FilterCriteria) (r : JobRow) : Bool :=
  decide (c.dateLower ≤ r.postedDate) && decide (r.postedDate ≤ c.dateUpper) &&
    c.locationSet.contains r.jobLocation &&
    c.companySizeSet.contains r.companySize &&
    c.jobTypeSet.contains r.jobType

/-- `filtered_df = df[mask]` (src/app.py line 107): keep the rows whose
mask entry is true, in their original order. -/
def apply_filters (c : FilterCriteria) (rows : List JobRow) : List JobRow :=
  rows.filter (rowMask c)

/- ================================================================
   Skills normalization and aggregation
   (src/app.py lines 48, 193-195 and 209-211).
   ================================================================ -/

/-- Python `str.split(',')`: split at every comma, keeping empty pieces;
the empty string yields one empty piece. -/
def splitComma : List Char → List (List Char)
  | [] => [[]]
  | c :: cs =>
    if c = ',' then [] :: splitComma cs
    else
      match splitComma cs with
      | [] => [[c]]
      | g :: gs => (c :: g) :: gs

/-- `s.split(',')` on strings. -/
def pySplitComma (s : String) : List String :=
  (splitComma s.data).map String.mk

/-- Python `str.strip()`: drop leading and trailing whitespace.
`Char.isWhitespace` models the whitespace class for the ASCII range. -/
def pyStrip (s : String) : String :=
  String.mk (((s.data.dropWhile Char.isWhitespace).reverse.dropWhile
    Char.isWhitespace).reverse)

/-- `df['Skills_List'] = df['Skills Required'].str.split(',')`
(src/app.py line 48): the stored skills column is the plain split of the
raw text, with no per-element trimming. -/
def skillsList (skillsRequired : String) : List String :=
  pySplitComma skillsRequired

/-- Written from the words of the spec, for comparison with `skillsList`:
splitting the skills-required column on the separator and trimming the
whitespace of each element. -/
def specSkillsList (skillsRequired : String) : List String :=
  (pySplitComma skillsRequired).map pyStrip

/-- The columns of a filtered row the two skills aggregations read. -/
structure AggRow where
  skills : List String
  avg_salary : Option ℚ
deriving DecidableEq

/-- `all_skills = [skill.strip() for skills in filtered_df['Skills_List']
for skill in skills]` (src/app.py line 193): flatten the per-row skills
lists in row order and strip each occurrence. -/
def all_skills (view : List AggRow) : List String :=
  (view.flatMap fun r => r.skills).map pyStrip

/-- Codepoint-lexicographic string order (Python's `<=` on `str`, the
order pandas sorts group keys by), computably on the character lists. -/
def strLexLe : List Char → List Char → Bool
  | [], _ => true
  | _ :: _, [] => false
  | a :: as, b :: bs => if a = b then strLexLe as bs else decide (a.toNat < b.toNat)

/-- `<=` on strings as group keys. -/
def pyStrLe (a b : String) : Bool := strLexLe a.data b.data

/-- `pd.DataFrame(xs, columns=['Skill']).value_counts()` (src/app.py
line 194): group by value with lexicographically sorted keys (pandas
`groupby` sorts group keys), count occurrences, then
`sort_values(ascending=False)`, which pandas implements as the reverse
of a stable ascending argsort. -/
def value_counts (l : List String) : List (String × Nat) :=
  let keys := stSort pyStrLe (dedupFE l)
  let pairs := keys.map fun k => (k, l.count k)
  (stSort (fun a b => decide (a.2 ≤ b.2)) pairs).reverse

/-- `skills_df` (src/app.py lines 194-195): the frequency table of the
stripped flattened skills. -/
def skills_df (view : List AggRow) : List (String × Nat) :=
  value_counts (all_skills view)

/-- `skills_df.head(10)` (src/app.py line 198): the top-10 series the
frequency chart renders. -/
def top_skills (view : List AggRow) : List (String × Nat) :=
  (skills_df view).take 10

/-- Written from the words of the spec, for comparison with `skills_df`:
count occurrences per distinct skill and sort descending by count with
ties broken by first-encountered order (a stable descending sort over
the keys in encounter order), take the top 10. -/
def specTopSkills (l : List String) : List (String × Nat) :=
  (stSort (fun a b => decide (b.2 ≤ a.2))
    ((dedupFE l).map fun k => (k, l.count k))).take 10

/-- `skills_salary = filtered_df.explode('Skills_List')` (src/app.py
line 209) restricted to the two columns the aggregation uses: one
`(skill, avg_salary)` pair per skill occurrence, in row order. -/
def explodeSkills (view : List AggRow) : List (String × Option ℚ) :=
  view.flatMap fun r => r.skills.map fun s => (s, r.avg_salary)

/-- One row of the `skills_salary_avg` table: the group key and the
aggregated `mean` and `count` of `avg_salary`. -/
structure SkillSalary where
  skill : String
  mean : Option ℚ
  count : Nat
deriving DecidableEq

/-- The `avg_salary` values present (non-`NaN`) in the group of `k`:
pandas `mean` and `count` both ignore missing values. -/
def groupSalaries (k : String) (ps : List (String × Option ℚ)) : List ℚ :=
  ps.filterMap fun p => if p.1 = k then p.2 else none

/-- Round half to even (the rounding of `numpy.round`), on exact
rationals. -/
def roundHalfEven (q : ℚ) : Int :=
  if q - ⌊q⌋ < 1 / 2 then ⌊q⌋
  else if 1 / 2 < q - ⌊q⌋ then ⌊q⌋ + 1
  else if ⌊q⌋ % 2 = 0 then ⌊q⌋ else ⌊q⌋ + 1

/-- `.round(2)` on exact rationals. -/
def round2 (q : ℚ) : ℚ := (roundHalfEven (q * 100) : ℚ) / 100

/-- `skills_salary.groupby('Skills_List')['avg_salary']
.agg(['mean','count']).round(2)` followed by the `count >= 5` filter and
`sort_values('mean', ascending=False)` (src/app.py lines 210-211).
Group keys are the raw (untrimmed) exploded skills; `count` counts the
group rows whose `avg_salary` is present; `mean` averages those values
(`NaN`, i.e. `none`, when the group has no present value); groups with
`count < 5` are dropped before the sort; the descending sort is the
reverse of a stable ascending argsort. -/
def skills_salary_avg (view : List AggRow) : List SkillSalary :=
  let ps := explodeSkills view
  let keys := stSort pyStrLe (dedupFE (ps.map Prod.fst))
  let entries := keys.map fun k =>
    let v := groupSalaries k ps
    { skill := k
      mean := if v.length = 0 then none else some (round2 (v.sum / v.length))
      count := v.length : SkillSalary }
  let kept := entries.filter fun e => decide (5 ≤ e.count)
  (stSort (fun a b => decide (a.mean.getD 0 ≤ b.mean.getD 0)) kept).reverse

/-- `skills_salary_avg.head(10)` (src/app.py line 214): the top-10 series
the highest-paying-skills chart renders. -/
def top_paying_skills (view : List AggRow) : List SkillSalary :=
  (skills_salary_avg view).take 10

/-- Written from the words of the spec, for comparison with
`top_paying_skills`: group by skill, mean of the non-absent `avg_salary`
values, count of skill occurrences, exclude occurrence count below 5,
sort descending by mean, take the top 10. -/
def specTopPayingSkills (view : List AggRow) : List SkillSalary :=
  let ps := explodeSkills view
  let entries := (dedupFE (ps.map Prod.fst)).map fun k =>
    let v := groupSalaries k ps
    { skill := k
      mean := if v.length = 0 then none else some (v.sum / v.length)
      count := (ps.map Prod.fst).count k : SkillSalary }
  let kept := entries.filter fun e => decide (5 ≤ e.count)
  (stSort (fun a b => decide (b.mean.getD 0 ≤ a.mean.getD 0)) kept).take 10

/- ================================================================
   Search Filter (src/app.py lines 303-313).
   `Series.str.contains(term, case=False, na=False)` interprets `term`
   as a regular expression (`regex=True` is the pandas default) and
   tests `re.search` with `re.IGNORECASE`; `na=False` makes missing
   cells non-matching.  The embedding below covers the regex fragment
   whose atoms are literal characters and the `.` wildcard, which is
   exactly `re.search` for every pattern free of the other
   metacharacters.
   ================================================================ -/

/-- The characters that are regex metacharacters beside the dot; a
pattern avoiding them (`SimplePattern`) is matched literally
character by character, with `.` matching any character but a
newline. -/
def regexMetachars : List Char :=
  ['\\', '*', '+', '?', '[', ']', '(', ')', '|', '$', '^',
   Char.ofNat 123, Char.ofNat 125]

/-- Patterns inside the embedded regex fragment: no metacharacter other
than the dot. -/
def SimplePattern (pat : String) : Prop :=
  ∀ c ∈ pat.data, c ∉ regexMetachars

instance (pat : String) : Decidable (SimplePattern pat) := by
  unfold SimplePattern
  infer_instance

/-- One pattern atom against one character, under `re.IGNORECASE`:
the dot matches everything but a newline, a literal matches up to
case. -/
def patCharMatch (p c : Char) : Bool :=
  if p = '.' then decide (c ≠ '\n') else p.toLower = c.toLower

/-- Does the pattern match a prefix of `s`? -/
def matchHere : List Char → List Char → Bool
  | [], _ => true
  | _ :: _, [] => false
  | p :: ps, c :: cs => patCharMatch p c && matchHere ps cs

/-- `re.search` for the fragment: does the pattern match at some start
position? -/
def reSearch (pat : List Char) : List Char → Bool
  | [] => matchHere pat []
  | c :: cs => matchHere pat (c :: cs) || reSearch pat cs

/-- `cell.str.contains(term, case=False, na=False)` on one present
cell. -/
def str_contains (term cell : String) : Bool :=
  reSearch term.data cell.data

/-- The columns `search_cols` reads (src/app.py line 303), as one row;
a `none` cell is a missing (`NaN`) value. -/
structure SearchRow where
  jobTitle : Option String
  companyName : Option String
  jobLocation : Option String
  skillsRequired : Option String
deriving DecidableEq

/-- The four cells of a row, in `search_cols` order. -/
def rowCells (r : SearchRow) : List (Option String) :=
  [r.jobTitle, r.companyName, r.jobLocation, r.skillsRequired]

/-- The per-row disjunction `.any(axis=1)` of the four column tests
(src/app.py lines 307-310); `na=False`: a missing cell never matches. -/
def rowSearchMatch (term : String) (r : SearchRow) : Bool :=
  (rowCells r).any fun oc =>
    match oc with
    | none => false
    | some cell => str_contains term cell

/-- `search_results` (src/app.py lines 306-313): an empty term (falsy in
`if search_term:`) returns the view unchanged, otherwise the rows whose
mask is true, in order. -/
def search_results (term : String) (view : List SearchRow) : List SearchRow :=
  if term = "" then view else view.filter (rowSearchMatch term)

/-- Written from the words of the spec, for comparison with
`str_contains`: case-insensitive substring containment. -/
def specContainsCI (term cell : String) : Bool :=
  decide ((term.data.map Char.toLower) <:+: (cell.data.map Char.toLower))

/- ================================================================
   Download serialization (src/app.py lines 327-333):
   `csv = search_results.to_csv(index=False)`.
   ================================================================ -/

/-- A calendar date, rendered `YYYY-MM-DD` as pandas writes a
time-of-day-free `Timestamp` to CSV. -/
structure Date where
  year : Nat
  month : Nat
  day : Nat
deriving DecidableEq

/-- Two-digit zero padding. -/
def pad2 (n : Nat) : String :=
  if n < 10 then "0" ++ toString n else toString n

/-- `YYYY-MM-DD`. -/
def dateToStr (d : Date) : String :=
  toString d.year ++ "-" ++ pad2 d.month ++ "-" ++ pad2 d.day

/-- Digits after the decimal point of `num/den` (`num < den` expected),
by long division; the fuel bounds the number of digits and is never
exhausted on the terminating decimals this development evaluates. -/
def fracDigits : Nat → Nat → Nat → List Char
  | 0, _, _ => []
  | _ + 1, 0, _ => []
  | fuel + 1, num, den =>
    Char.ofNat (48 + num * 10 / den) :: fracDigits fuel (num * 10 % den) den

/-- Python `repr` of a float whose exact value is a terminating decimal
(the only values this development renders): integer part, a dot, and
the fraction digits, with `.0` for integral values. -/
def ratToPyStr (q : ℚ) : String :=
  let sign := if q < 0 then "-" else ""
  let n := (|q|).num.toNat
  let d := (|q|).den
  let ip := n / d
  let frac := n % d
  sign ++ toString ip ++ "." ++
    (if frac = 0 then "0" else String.mk (fracDigits 30 frac d))

/-- A numeric cell in the CSV output: missing values print as the empty
field. -/
def ratCell : Option ℚ → String
  | none => ""
  | some q => ratToPyStr q

/-- Python `str` of a list of strings, as pandas prints a `Skills_List`
cell (faithful for elements free of quotes and escapes). -/
def pyListRepr (l : List String) : String :=
  "[" ++ String.intercalate ", "
    (l.map fun s => String.singleton (Char.ofNat 39) ++ s ++ String.singleton (Char.ofNat 39)) ++ "]"

/-- One row of `search_results` with every column of the loaded frame:
the raw dataset columns followed by the derived columns in creation
order (src/app.py lines 37-48). -/
structure CsvRow where
  jobId : String
  jobTitle : String
  companyName : String
  jobLocation : String
  jobType : String
  companySize : String
  salaryRange : String
  experienceRequired : String
  skillsRequired : String
  postedDateRaw : String
  applicationDeadlineRaw : String
  remoteOnsite : String
  educationRequirement : String
  numberOfApplicants : Int
  min_salary : Option ℚ
  max_salary : Option ℚ
  avg_salary : Option ℚ
  experienceYears : Option ℚ
  postedDate : Date
  applicationDeadline : Date
  skillsList : List String
deriving DecidableEq

/-- Modelled from the spec: the raw column names and their order come
from the dataset file (`india_job_market_dataset.csv`), which is not in
the repository; spec section 6 lists the required columns in this
order.  The derived columns follow in the order the loader creates them
(src/app.py lines 37-48). -/
def csvColumns : List String :=
  ["Job ID", "Job Title", "Company Name", "Job Location", "Job Type",
   "Company Size", "Salary Range", "Experience Required", "Skills Required",
   "Posted Date", "Application Deadline", "Remote/Onsite",
   "Education Requirement", "Number of Applicants",
   "min_salary", "max_salary", "avg_salary", "Experience_Years",
   "Posted_Date", "Application_Deadline", "Skills_List"]

/-- The cells of one row, in `csvColumns` order, rendered as text. -/
def rowCellStrings (r : CsvRow) : List String :=
  [r.jobId, r.jobTitle, r.companyName, r.jobLocation, r.jobType,
   r.companySize, r.salaryRange, r.experienceRequired, r.skillsRequired,
   r.postedDateRaw, r.applicationDeadlineRaw, r.remoteOnsite,
   r.educationRequirement, toString r.numberOfApplicants,
   ratCell r.min_salary, ratCell r.max_salary, ratCell r.avg_salary,
   ratCell r.experienceYears, dateToStr r.postedDate,
   dateToStr r.applicationDeadline, pyListRepr r.skillsList]

/-- CSV minimal quoting: a field containing a comma, a double quote or a
line break is wrapped in double quotes with inner quotes doubled. -/
def csvQuote (s : String) : String :=
  if s.data.any (fun c => c = ',' || c = '"' || c = '\n' || c = '\r') then
    "\"" ++ String.mk (s.data.flatMap fun c =>
      if c = '"' then ['"', '"'] else [c]) ++ "\""
  else s

/-- One CSV record: the quoted fields joined by commas. -/
def csvLine (cells : List String) : String :=
  String.intercalate "," (cells.map csvQuote)

/-- `search_results.to_csv(index=False)` (src/app.py line 327): the
header row of every column name followed by one record per row, each
terminated by a newline. -/
def to_csv (rows : List CsvRow) : String :=
  String.join ((csvLine csvColumns :: rows.map fun r =>
    csvLine (rowCellStrings r)).map fun ln => ln ++ "\n")

/-- The display subset of src/app.py lines 317-321: the user-facing
columns of the results table. -/
def displayColumns : List String :=
  ["Job Title", "Company Name", "Job Location", "Job Type",
   "Salary Range", "Experience Required", "Posted_Date",
   "Remote/Onsite", "Number of Applicants"]

/-- The cells of the display subset, in `displayColumns` order. -/
def displayCellStrings (r : CsvRow) : List String :=
  [r.jobTitle, r.companyName, r.jobLocation, r.jobType, r.salaryRange,
   r.experienceRequired, dateToStr r.postedDate, r.remoteOnsite,
   toString r.numberOfApplicants]

/-- Written from the words of the spec, for comparison with `to_csv`:
the same serialization restricted to the fixed user-facing column
subset. -/
def specDownloadCsv (rows : List CsvRow) : String :=
  String.join ((csvLine displayColumns :: rows.map fun r =>
    csvLine (displayCellStrings r)).map fun ln => ln ++ "\n")

/-- The first line of a serialized text. -/
def firstLine (s : String) : String :=
  String.mk (s.data.takeWhile fun c => c ≠ '\n')

/-- Rejoin comma-split pieces with the separator (used to state that the
stored skills column loses nothing of the raw text). -/
def joinComma : List (List Char) → List Char
  | [] => []
  | [g] => g
  | g :: gs => g ++ ',' :: joinComma gs

/- ================================================================
   Facts about the numeric token scanner.
   ================================================================ -/

theorem takeWhile_append_eq (p : α → Bool) (a : List α) (c : α) (b : List α)
    (ha : ∀ x ∈ a, p x = true) (hc : p c = false) :
    (a ++ c :: b).takeWhile p = a ∧ (a ++ c :: b).dropWhile p = c :: b := by
  induction a with
  | nil => simp [List.takeWhile_cons, List.dropWhile_cons, hc]
  | cons x a2 ih =>
    have hx : p x = true := ha x (by simp)
    have ih2 := ih fun y hy => ha y (by simp [hy])
    simp [List.takeWhile_cons, List.dropWhile_cons, hx, ih2.1, ih2.2]

theorem isNumeral_numToken (c : Char) (cs : List Char) (hc : c.isDigit = true) :
    isNumeral (numToken (c :: cs)) = true := by
  have htw : (c :: cs).takeWhile Char.isDigit = c :: cs.takeWhile Char.isDigit := by
    simp [List.takeWhile_cons, hc]
  unfold numToken
  split
  · next d r2 h =>
    by_cases hd : d.isDigit
    · simp only [hd, if_true]
      have ha : ∀ x ∈ (c :: cs).takeWhile Char.isDigit, Char.isDigit x = true :=
        fun x hx => List.mem_takeWhile_imp hx
      have hdot : Char.isDigit '.' = false := rfl
      obtain ⟨h1, h2⟩ := takeWhile_append_eq Char.isDigit
        ((c :: cs).takeWhile Char.isDigit) '.' ((d :: r2).takeWhile Char.isDigit)
        ha hdot
      have htw2 : (d :: r2).takeWhile Char.isDigit = d :: r2.takeWhile Char.isDigit := by
        simp [List.takeWhile_cons, hd]
      unfold isNumeral
      rw [h1, h2, htw, htw2]
      simp [List.all_takeWhile, hd]
    · simp only [hd]
      simp only [Bool.false_eq_true, if_false]
      have hall : ∀ x ∈ (c :: cs).takeWhile Char.isDigit, Char.isDigit x = true :=
        fun x hx => List.mem_takeWhile_imp hx
      unfold isNumeral
      have hdw : ((c :: cs).takeWhile Char.isDigit).dropWhile Char.isDigit = [] :=
        List.dropWhile_eq_nil_iff.mpr hall
      have htt : ((c :: cs).takeWhile Char.isDigit).takeWhile Char.isDigit =
          (c :: cs).takeWhile Char.isDigit :=
        List.takeWhile_eq_self_iff.mpr hall
      rw [hdw, htt, htw]
      simp
  · have hall : ∀ x ∈ (c :: cs).takeWhile Char.isDigit, Char.isDigit x = true :=
      fun x hx => List.mem_takeWhile_imp hx
    unfold isNumeral
    have hdw : ((c :: cs).takeWhile Char.isDigit).dropWhile Char.isDigit = [] :=
      List.dropWhile_eq_nil_iff.mpr hall
    have htt : ((c :: cs).takeWhile Char.isDigit).takeWhile Char.isDigit =
        (c :: cs).takeWhile Char.isDigit :=
      List.takeWhile_eq_self_iff.mpr hall
    rw [hdw, htt, htw]
    simp

theorem findNumbers_facts :
    ∀ (n : Nat) (l : List Char), l.length ≤ n →
      (∀ t ∈ findNumbers l, isNumeral t = true) ∧
        (List.flatten (findNumbers l)).Sublist l := by
  intro n
  induction n with
  | zero =>
    intro l hn
    have hl : l = [] := List.length_eq_zero.mp (Nat.le_zero.mp hn)
    subst hl
    simp [findNumbers_nil]
  | succ n ih =>
    intro l hn
    cases l with
    | nil => simp [findNumbers_nil]
    | cons c cs =>
      simp only [List.length_cons] at hn
      by_cases hc : c.isDigit
      · have hr : (numRest (c :: cs)).length ≤ n := by
          have := numRest_length_lt c cs hc
          simp only [List.length_cons] at this
          omega
        obtain ⟨ihA, ihB⟩ := ih (numRest (c :: cs)) hr
        rw [findNumbers_cons_digit c cs hc]
        constructor
        · intro t ht
          rcases List.mem_cons.mp ht with h | h
          · rw [h]; exact isNumeral_numToken c cs hc
          · exact ihA t h
        · rw [List.flatten_cons]
          have h2 := List.Sublist.append
            (List.Sublist.refl (numToken (c :: cs))) ihB
          rw [numToken_append_numRest] at h2
          exact h2
      · rw [findNumbers_cons_nondigit c cs hc]
        obtain ⟨ihA, ihB⟩ := ih cs (by omega)
        exact ⟨ihA, ihB.cons c⟩

theorem findNumbers_isNumeral (l : List Char) :
    ∀ t ∈ findNumbers l, isNumeral t = true :=
  (findNumbers_facts l.length l (le_refl _)).1

theorem findNumbers_flatten_sublist (l : List Char) :
    (List.flatten (findNumbers l)).Sublist l :=
  (findNumbers_facts l.length l (le_refl _)).2

theorem tokenToRat_int (t : List Char) (h : t.dropWhile Char.isDigit = []) :
    tokenToRat t = (digitsToNat t : ℚ) := by
  have ht : t.takeWhile Char.isDigit = t := by
    have h2 := List.takeWhile_append_dropWhile (p := Char.isDigit) (l := t)
    rw [h, List.append_nil] at h2
    exact h2
  simp [tokenToRat, h, ht]

theorem tokenToRat_eval (t : List Char) (n : Nat)
    (h : t.dropWhile Char.isDigit = []) (hn : digitsToNat t = n) :
    tokenToRat t = (n : ℚ) := by
  rw [tokenToRat_int t h, hn]

/- ================================================================
   Claim theorems: field parsers (C1, C3, C5).
   ================================================================ -/

/-- C1: for every input text, the salary parser extracts the numeric
substrings (each a wellformed integer or decimal numeral, and their
concatenation an ordered subsequence of the text, so they occur left to
right); with fewer than two numbers the result is all-absent; otherwise
the first two numbers become `min` and `max` in encountered order and
`avg` is their arithmetic mean. -/
theorem process_salary_spec (s : String) :
    (∀ t ∈ findNumbers s.data, isNumeral t = true) ∧
    (List.flatten (findNumbers s.data)).Sublist s.data ∧
    ((findNumbers s.data).length < 2 →
      process_salary s = ⟨none, none, none⟩) ∧
    (∀ a b rest, findNumbers s.data = a :: b :: rest →
      process_salary s = ⟨some (tokenToRat a), some (tokenToRat b),
        some ((tokenToRat a + tokenToRat b) / 2)⟩) ∧
    (∀ mn mx av, (process_salary s).min_salary = some mn →
      (process_salary s).max_salary = some mx →
      (process_salary s).avg_salary = some av → av = (mn + mx) / 2) := by
  refine ⟨findNumbers_isNumeral s.data, findNumbers_flatten_sublist s.data, ?_, ?_, ?_⟩
  · intro hlen
    rcases h : findNumbers s.data with _ | ⟨a, _ | ⟨b, r⟩⟩
    · simp only [process_salary, h]
    · simp only [process_salary, h]
    · rw [h] at hlen
      simp only [List.length_cons] at hlen
      omega
  · intro a b rest h
    simp only [process_salary, h]
  · intro mn mx av h1 h2 h3
    rcases h : findNumbers s.data with _ | ⟨a, _ | ⟨b, r⟩⟩
    · simp [process_salary, h] at h1
    · simp [process_salary, h] at h1
    · simp only [process_salary, h] at h1 h2 h3
      simp only [Option.some.injEq] at h1 h2 h3
      subst h1
      subst h2
      subst h3
      rfl

/-- Witness for C1 at the three spec examples. -/
theorem process_salary_spec_witness :
    process_salary "₹6-10 LPA" = ⟨some 6, some 10, some 8⟩ ∧
    process_salary "no data" = ⟨none, none, none⟩ ∧
    process_salary "5 LPA" = ⟨none, none, none⟩ := by
  have t6 : tokenToRat ['6'] = ((6 : Nat) : ℚ) :=
    tokenToRat_eval ['6'] 6 (by decide) (by decide)
  have t10 : tokenToRat ['1', '0'] = ((10 : Nat) : ℚ) :=
    tokenToRat_eval ['1', '0'] 10 (by decide) (by decide)
  refine ⟨?_, ?_, ?_⟩
  · have h := (process_salary_spec "₹6-10 LPA").2.2.2.1 ['6'] ['1', '0'] []
      (by decide)
    rw [h, t6, t10]
    norm_num
  · exact (process_salary_spec "no data").2.2.1 (by decide)
  · exact (process_salary_spec "5 LPA").2.2.1 (by decide)

/-- C3 counterexample: the claim says a non-string input is treated as
zero matches (absent result), but the code first coerces the input with
`str()`; the integer `3`, a non-string value, is parsed from its text
rendering and yields `3.0`, not an absent result. -/
theorem process_experience_nonstring_counterexample :
    process_experience (PyVal.pyInt 3) = some 3 ∧
    ¬ process_experience (PyVal.pyInt 3) = none := by
  have h : findNumbers (pyToStr (PyVal.pyInt 3)).data = [['3']] := by decide
  have h1 : process_experience (PyVal.pyInt 3) = some 3 := by
    simp only [process_experience, h]
    rw [tokenToRat_eval ['3'] 3 (by decide) (by decide)]
    norm_num
  exact ⟨h1, by rw [h1]; simp⟩

/-- C3 amended: the experience parser returns absent on zero extracted
numbers, the value of a single number, and the mean of the first two of
two or more; a missing (`None`/`NaN`) or empty input yields zero matches
and an absent result; any other value, a non-string included, is first
coerced to its text form by `str()` and parsed from that text, never an
error. -/
theorem process_experience_spec_amended (v : PyVal) :
    (findNumbers (pyToStr v).data = [] → process_experience v = none) ∧
    (∀ a, findNumbers (pyToStr v).data = [a] →
      process_experience v = some (tokenToRat a)) ∧
    (∀ a b rest, findNumbers (pyToStr v).data = a :: b :: rest →
      process_experience v = some ((tokenToRat a + tokenToRat b) / 2)) ∧
    process_experience PyVal.pyNone = none ∧
    process_experience PyVal.pyNaN = none ∧
    process_experience (PyVal.pyStr "") = none := by
  refine ⟨?_, ?_, ?_, by decide, by decide, by decide⟩
  · intro h
    simp only [process_experience, h]
  · intro a h
    simp only [process_experience, h]
  · intro a b rest h
    simp only [process_experience, h]

/-- Witness for C3 at the spec examples. -/
theorem process_experience_spec_amended_witness :
    process_experience (PyVal.pyStr "2-5 years") = some (7 / 2) ∧
    process_experience (PyVal.pyStr "3 years") = some 3 ∧
    process_experience (PyVal.pyStr "") = none := by
  refine ⟨?_, ?_, (process_experience_spec_amended (PyVal.pyStr "")).2.2.2.2.2⟩
  · have h := (process_experience_spec_amended (PyVal.pyStr "2-5 years")).2.2.1
      ['2'] ['5'] [] (by decide)
    rw [h, tokenToRat_eval ['2'] 2 (by decide) (by decide),
      tokenToRat_eval ['5'] 5 (by decide) (by decide)]
    norm_num
  · have h := (process_experience_spec_amended (PyVal.pyStr "3 years")).2.1
      ['3'] (by decide)
    rw [h, tokenToRat_eval ['3'] 3 (by decide) (by decide)]
    norm_num

/-- C5 counterexample: the parser takes the first two numbers in
encountered order, so a salary text listing the larger bound first
yields `min_salary = 10 > 6 = max_salary`, violating the claimed
invariant. -/
theorem min_le_max_counterexample :
    (process_salary "₹10-6 LPA").min_salary = some 10 ∧
    (process_salary "₹10-6 LPA").max_salary = some 6 ∧
    ¬ ((10 : ℚ) ≤ 6) := by
  have h : findNumbers "₹10-6 LPA".data = [['1', '0'], ['6']] := by decide
  have t6 : tokenToRat ['6'] = ((6 : Nat) : ℚ) :=
    tokenToRat_eval ['6'] 6 (by decide) (by decide)
  have t10 : tokenToRat ['1', '0'] = ((10 : Nat) : ℚ) :=
    tokenToRat_eval ['1', '0'] 10 (by decide) (by decide)
  refine ⟨?_, ?_, by norm_num⟩
  · simp only [process_salary, h, t10]
    norm_num
  · simp only [process_salary, h, t6]
    norm_num

/-- C5 amended: `min_salary ≤ max_salary` holds for a row exactly when
the salary text lists the smaller of its first two numbers first; the
parser does not reorder them. -/
theorem min_le_max_amended (s : String) (a b : List Char) (rest : List (List Char))
    (h : findNumbers s.data = a :: b :: rest)
    (hab : tokenToRat a ≤ tokenToRat b) :
    ∃ mn mx, (process_salary s).min_salary = some mn ∧
      (process_salary s).max_salary = some mx ∧ mn ≤ mx := by
  refine ⟨tokenToRat a, tokenToRat b, ?_, ?_, hab⟩ <;> simp only [process_salary, h]

/-- Witness for C5 amended at the ordered example text. -/
theorem min_le_max_amended_witness :
    ∃ mn mx, (process_salary "₹6-10 LPA").min_salary = some mn ∧
      (process_salary "₹6-10 LPA").max_salary = some mx ∧ mn ≤ mx := by
  apply min_le_max_amended "₹6-10 LPA" ['6'] ['1', '0'] [] (by decide)
  rw [tokenToRat_eval ['6'] 6 (by decide) (by decide),
    tokenToRat_eval ['1', '0'] 10 (by decide) (by decide)]
  norm_num

/- ================================================================
   Claim theorem: Filter Engine (C2).
   ================================================================ -/

/-- C2: a row is in the filtered view iff its posted date is inside the
inclusive bounds and its location, company size and job type are in the
selected sets; the view is never longer than the input, an empty
location set gives the empty view, and the view is a subsequence of the
input (original order preserved). -/
theorem apply_filters_spec (c : FilterCriteria) (rows : List JobRow) :
    (∀ r, r ∈ apply_filters c rows ↔ r ∈ rows ∧
      (c.dateLower ≤ r.postedDate ∧ r.postedDate ≤ c.dateUpper ∧
        r.jobLocation ∈ c.locationSet ∧ r.companySize ∈ c.companySizeSet ∧
        r.jobType ∈ c.jobTypeSet)) ∧
    (apply_filters c rows).length ≤ rows.length ∧
    (c.locationSet = [] → apply_filters c rows = []) ∧
    (apply_filters c rows).Sublist rows := by
  refine ⟨?_, List.length_filter_le _ _, ?_, List.filter_sublist _⟩
  · intro r
    rw [apply_filters, List.mem_filter]
    unfold rowMask
    simp only [Bool.and_eq_true, decide_eq_true_eq, List.contains, List.elem_iff]
    tauto
  · intro hloc
    rw [apply_filters, List.filter_eq_nil_iff]
    intro r _
    unfold rowMask
    rw [hloc]
    simp [List.contains]

/-- Witness for C2: one concrete criteria set with an empty location set
filters a matching row away. -/
theorem apply_filters_spec_witness :
    apply_filters ⟨0, 10, [], ["51-200"], ["Remote"]⟩
      [⟨5, "Mumbai", "51-200", "Remote"⟩] = [] :=
  (apply_filters_spec ⟨0, 10, [], ["51-200"], ["Remote"]⟩
    [⟨5, "Mumbai", "51-200", "Remote"⟩]).2.2.1 rfl

/- ================================================================
   Facts about the stable sort and the aggregation helpers.
   ================================================================ -/

theorem stInsert_perm (le : α → α → Bool) (x : α) (l : List α) :
    (stInsert le x l).Perm (x :: l) := by
  induction l with
  | nil => rfl
  | cons y ys ih =>
    unfold stInsert
    by_cases h : le y x
    · simp only [h, if_true]
      exact (ih.cons y).trans (List.Perm.swap x y ys)
    · simp only [h]
      simp only [Bool.false_eq_true, if_false]
      exact List.Perm.refl _

theorem mem_stInsert (le : α → α → Bool) (x a : α) (l : List α) :
    a ∈ stInsert le x l ↔ a = x ∨ a ∈ l := by
  rw [(stInsert_perm le x l).mem_iff, List.mem_cons]

theorem stInsert_pairwise (le : α → α → Bool)
    (htot : ∀ a b, le a b = true ∨ le b a = true)
    (htr : ∀ a b c, le a b = true → le b c = true → le a c = true)
    (x : α) (l : List α) (hl : l.Pairwise fun a b => le a b = true) :
    (stInsert le x l).Pairwise fun a b => le a b = true := by
  induction l with
  | nil => simp [stInsert]
  | cons y ys ih =>
    rcases List.pairwise_cons.mp hl with ⟨hy, hys⟩
    unfold stInsert
    by_cases h : le y x
    · simp only [h, if_true]
      refine List.pairwise_cons.mpr ⟨?_, ih hys⟩
      intro z hz
      rcases (mem_stInsert le x z ys).mp hz with hz | hz
      · rw [hz]; exact h
      · exact hy z hz
    · simp only [h]
      simp only [Bool.false_eq_true, if_false]
      have hxy : le x y = true := by
        rcases htot x y with h2 | h2
        · exact h2
        · exact absurd h2 h
      refine List.pairwise_cons.mpr ⟨?_, hl⟩
      intro z hz
      rcases List.mem_cons.mp hz with hz | hz
      · rw [hz]; exact hxy
      · exact htr x y z hxy (hy z hz)

theorem stSort_go_perm (le : α → α → Bool) :
    ∀ (l acc : List α),
      (l.foldl (fun acc x => stInsert le x acc) acc).Perm (acc ++ l) := by
  intro l
  induction l with
  | nil => simp
  | cons a l ih =>
    intro acc
    have h1 := ih (stInsert le a acc)
    have h2 : (stInsert le a acc ++ l).Perm (acc ++ a :: l) := by
      have h3 := (stInsert_perm le a acc).append_right l
      have h4 : ((a :: acc) ++ l).Perm (acc ++ a :: l) := by
        have h5 := @List.perm_middle _ a acc l
        exact h5.symm
      exact h3.trans h4
    rw [List.foldl_cons]
    exact h1.trans h2

theorem stSort_perm (le : α → α → Bool) (l : List α) :
    (stSort le l).Perm l := by
  have := stSort_go_perm le l []
  simpa [stSort] using this

theorem mem_stSort (le : α → α → Bool) (a : α) (l : List α) :
    a ∈ stSort le l ↔ a ∈ l :=
  (stSort_perm le l).mem_iff

theorem stSort_go_pairwise (le : α → α → Bool)
    (htot : ∀ a b, le a b = true ∨ le b a = true)
    (htr : ∀ a b c, le a b = true → le b c = true → le a c = true) :
    ∀ (l acc : List α), (acc.Pairwise fun a b => le a b = true) →
      (l.foldl (fun acc x => stInsert le x acc) acc).Pairwise
        fun a b => le a b = true := by
  intro l
  induction l with
  | nil => intro acc h; simpa using h
  | cons a l ih =>
    intro acc h
    rw [List.foldl_cons]
    exact ih (stInsert le a acc) (stInsert_pairwise le htot htr a acc h)

theorem stSort_pairwise (le : α → α → Bool)
    (htot : ∀ a b, le a b = true ∨ le b a = true)
    (htr : ∀ a b c, le a b = true → le b c = true → le a c = true)
    (l : List α) :
    (stSort le l).Pairwise fun a b => le a b = true :=
  stSort_go_pairwise le htot htr l [] (by simp)

theorem dedupFE_go_mem [DecidableEq α] :
    ∀ (l acc : List α) (x : α),
      x ∈ l.foldl (fun acc y => if y ∈ acc then acc else acc ++ [y]) acc ↔
        x ∈ acc ∨ x ∈ l := by
  intro l
  induction l with
  | nil => simp
  | cons a l ih =>
    intro acc x
    rw [List.foldl_cons]
    rw [ih]
    by_cases h : a ∈ acc
    · simp only [h, if_true, List.mem_cons]
      constructor
      · rintro (h2 | h2)
        · exact Or.inl h2
        · exact Or.inr (Or.inr h2)
      · rintro (h2 | h2 | h2)
        · exact Or.inl h2
        · rw [h2]; exact Or.inl h
        · exact Or.inr h2
    · simp only [h, if_false, List.mem_append, List.mem_singleton, List.mem_cons]
      tauto

theorem mem_dedupFE [DecidableEq α] (l : List α) (x : α) :
    x ∈ dedupFE l ↔ x ∈ l := by
  rw [dedupFE, dedupFE_go_mem]
  simp

theorem value_counts_mem (l : List String) (p : String × Nat) :
    p ∈ value_counts l ↔ p.1 ∈ l ∧ p.2 = l.count p.1 := by
  obtain ⟨a, n⟩ := p
  unfold value_counts
  rw [List.mem_reverse, mem_stSort, List.mem_map]
  constructor
  · rintro ⟨k, hk, hke⟩
    rw [mem_stSort, mem_dedupFE] at hk
    have h1 : k = a := congrArg Prod.fst hke
    have h2 : l.count k = n := congrArg Prod.snd hke
    subst h1
    exact ⟨hk, h2.symm⟩
  · rintro ⟨h1, h2⟩
    refine ⟨a, ?_, ?_⟩
    · rw [mem_stSort, mem_dedupFE]
      exact h1
    · exact congrArg (Prod.mk a) h2.symm

theorem value_counts_sorted (l : List String) :
    (value_counts l).Pairwise fun a b => b.2 ≤ a.2 := by
  unfold value_counts
  rw [List.pairwise_reverse]
  have h := stSort_pairwise (fun a b : String × Nat => decide (a.2 ≤ b.2))
    (fun a b => by
      rcases Nat.le_total a.2 b.2 with h | h
      · exact Or.inl (decide_eq_true h)
      · exact Or.inr (decide_eq_true h))
    (fun a b c hab hbc =>
      decide_eq_true (Nat.le_trans (of_decide_eq_true hab) (of_decide_eq_true hbc)))
    (((stSort pyStrLe (dedupFE l)).map fun k => (k, l.count k)))
  exact h.imp fun hab => of_decide_eq_true hab

theorem count_map_eq_countP [DecidableEq α] [DecidableEq β] (f : α → β)
    (l : List α) (k : β) :
    (l.map f).count k = l.countP fun o => decide (f o = k) := by
  induction l with
  | nil => rfl
  | cons a l ih =>
    rw [List.map_cons, List.count_cons, List.countP_cons, ih]
    simp only [beq_iff_eq, decide_eq_true_eq]

theorem map_fst_explode (view : List AggRow) :
    (explodeSkills view).map Prod.fst = view.flatMap fun r => r.skills := by
  unfold explodeSkills
  induction view with
  | nil => rfl
  | cons r rest ih =>
    rw [List.flatMap_cons, List.flatMap_cons, List.map_append, ih, List.map_map]
    congr 1
    rw [show (Prod.fst ∘ fun s : String => (s, r.avg_salary)) = id from rfl,
      List.map_id]

theorem groupSalaries_length_le (k : String) (ps : List (String × Option ℚ)) :
    (groupSalaries k ps).length ≤ (ps.map Prod.fst).count k := by
  induction ps with
  | nil => simp [groupSalaries]
  | cons p ps ih =>
    by_cases hk : p.1 = k
    · cases hs : p.2 with
      | none =>
        have h1 : groupSalaries k (p :: ps) = groupSalaries k ps := by
          simp [groupSalaries, List.filterMap_cons, hk, hs]
        rw [h1, List.map_cons, List.count_cons]
        simp only [beq_iff_eq, hk, if_true]
        omega
      | some q =>
        have h1 : groupSalaries k (p :: ps) = q :: groupSalaries k ps := by
          simp [groupSalaries, List.filterMap_cons, hk, hs]
        rw [h1, List.map_cons, List.count_cons, List.length_cons]
        simp only [beq_iff_eq, hk, if_true]
        omega
    · have h1 : groupSalaries k (p :: ps) = groupSalaries k ps := by
        simp [groupSalaries, List.filterMap_cons, hk]
      rw [h1, List.map_cons, List.count_cons]
      simp only [beq_iff_eq, hk, if_false]
      omega

theorem mem_skills_salary_avg (view : List AggRow) (e : SkillSalary)
    (he : e ∈ skills_salary_avg view) :
    e.skill ∈ (view.flatMap fun r => r.skills) ∧ 5 ≤ e.count ∧
      e.count = (groupSalaries e.skill (explodeSkills view)).length ∧
      e.mean = some (round2 ((groupSalaries e.skill (explodeSkills view)).sum /
        ((groupSalaries e.skill (explodeSkills view)).length : ℚ))) := by
  unfold skills_salary_avg at he
  rw [List.mem_reverse, mem_stSort, List.mem_filter] at he
  obtain ⟨hent, hcnt⟩ := he
  rw [List.mem_map] at hent
  obtain ⟨k, hk, hke⟩ := hent
  rw [mem_stSort, mem_dedupFE] at hk
  subst hke
  simp only [decide_eq_true_eq] at hcnt
  have hlen : (groupSalaries k (explodeSkills view)).length ≠ 0 := by omega
  refine ⟨?_, hcnt, rfl, ?_⟩
  · rw [← map_fst_explode]
    exact hk
  · simp only [hlen, if_false]

theorem pairwise_skills_salary_avg (view : List AggRow) :
    (skills_salary_avg view).Pairwise
      fun a b => b.mean.getD 0 ≤ a.mean.getD 0 := by
  unfold skills_salary_avg
  rw [List.pairwise_reverse]
  exact (stSort_pairwise
    (fun a b : SkillSalary => decide (a.mean.getD 0 ≤ b.mean.getD 0))
    (fun a b => by
      rcases le_total (a.mean.getD 0) (b.mean.getD 0) with h | h
      · exact Or.inl (decide_eq_true h)
      · exact Or.inr (decide_eq_true h))
    (fun a b c hab hbc =>
      decide_eq_true (le_trans (of_decide_eq_true hab) (of_decide_eq_true hbc)))
    _).imp fun hab => of_decide_eq_true hab

/- ================================================================
   Claim theorems: skills normalization and aggregation
   (C4, C6, C7, C10).
   ================================================================ -/

theorem splitComma_ne_nil (l : List Char) : splitComma l ≠ [] := by
  cases l with
  | nil => simp [splitComma]
  | cons c cs =>
    unfold splitComma
    by_cases h : c = ','
    · simp [h]
    · simp only [h, if_false]
      cases h2 : splitComma cs <;> simp

theorem splitComma_join (l : List Char) :
    joinComma (splitComma l) = l := by
  induction l with
  | nil => rfl
  | cons c cs ih =>
    unfold splitComma
    by_cases h : c = ','
    · simp only [h, if_true]
      cases h2 : splitComma cs with
      | nil => exact absurd h2 (splitComma_ne_nil cs)
      | cons g gs =>
        rw [h2] at ih
        show joinComma ([] :: g :: gs) = ',' :: cs
        unfold joinComma
        rw [List.nil_append, ih]
    · simp only [h, if_false]
      cases h2 : splitComma cs with
      | nil => exact absurd h2 (splitComma_ne_nil cs)
      | cons g gs =>
        rw [h2] at ih
        cases gs with
        | nil =>
          show c :: g = c :: cs
          unfold joinComma at ih
          rw [ih]
        | cons g2 gs2 =>
          show (c :: g) ++ ',' :: joinComma (g2 :: gs2) = c :: cs
          rw [List.cons_append]
          unfold joinComma at ih
          rw [ih]

theorem splitComma_no_comma (l : List Char) :
    ∀ g ∈ splitComma l, ',' ∉ g := by
  induction l with
  | nil =>
    intro g hg
    simp [splitComma] at hg
    simp [hg]
  | cons c cs ih =>
    intro g hg
    unfold splitComma at hg
    by_cases h : c = ','
    · simp only [h, if_true, List.mem_cons] at hg
      rcases hg with hg | hg
      · simp [hg]
      · exact ih g hg
    · simp only [h, if_false] at hg
      cases h2 : splitComma cs with
      | nil => exact absurd h2 (splitComma_ne_nil cs)
      | cons g0 gs =>
        rw [h2] at hg
        rcases List.mem_cons.mp hg with hg | hg
        · intro hmem
          rw [hg] at hmem
          rcases List.mem_cons.mp hmem with hmem | hmem
          · exact h hmem.symm
          · exact ih g0 (by rw [h2]; exact List.mem_cons_self g0 gs) hmem
        · exact ih g (by rw [h2]; exact List.mem_cons_of_mem g0 hg)

/-- C4 counterexample: the stored skills column is the split of the raw
text with no trimming; on `A, B` the second stored element keeps its
leading space, while the claim (split then trim each element) expects it
trimmed. -/
theorem skills_split_trim_counterexample :
    skillsList "A, B" = ["A", " B"] ∧
    specSkillsList "A, B" = ["A", "B"] ∧
    ¬ skillsList "A, B" = specSkillsList "A, B" := by decide

/-- C4 amended: the normalized skills sequence is the raw skills-required
string split on the separator with the elements kept verbatim (no
whitespace trimming): no element contains the separator and rejoining the
elements with the separator reproduces the raw string exactly, so the
original string is left unchanged. -/
theorem skills_split_spec_amended (s : String) :
    skillsList s = (splitComma s.data).map String.mk ∧
    String.mk (joinComma (splitComma s.data)) = s ∧
    ∀ g ∈ splitComma s.data, ',' ∉ g := by
  refine ⟨rfl, ?_, splitComma_no_comma s.data⟩
  rw [splitComma_join]

/-- Witness for C4 amended at the example text. -/
theorem skills_split_spec_amended_witness :
    String.mk (joinComma (splitComma "A, B".data)) = "A, B" :=
  (skills_split_spec_amended "A, B").2.1

/-- C7 counterexample: with one row whose skills are `A` then `B` (each
one occurrence), the code's frequency table lists `B` before `A` —
the grouping sorts the keys and the descending sort is the reverse of
the ascending one, so tied counts come out in reverse key order — while
the claimed first-encountered tie order lists `A` first. -/
theorem top_skills_tie_order_counterexample :
    skills_df [⟨["A", "B"], none⟩] = [("B", 1), ("A", 1)] ∧
    specTopSkills (all_skills [⟨["A", "B"], none⟩]) = [("A", 1), ("B", 1)] ∧
    ¬ skills_df [⟨["A", "B"], none⟩] =
        specTopSkills (all_skills [⟨["A", "B"], none⟩]) := by decide

/-- C7 amended: the frequency aggregation flattens the skills across the
rows (one stripped emission per occurrence), counts occurrences per
distinct skill (every table entry carries the exact occurrence count of
its key and every flattened skill appears), sorts descending by count —
with ties in an order determined by the underlying sorts, not by first
encounter — and the chart takes at most the top 10. -/
theorem top_skills_amended (view : List AggRow) :
    (top_skills view).length ≤ 10 ∧
    all_skills view = (view.flatMap fun r => r.skills).map pyStrip ∧
    (∀ p ∈ skills_df view, p.1 ∈ all_skills view ∧
      p.2 = (all_skills view).count p.1) ∧
    (∀ k ∈ all_skills view, (k, (all_skills view).count k) ∈ skills_df view) ∧
    (skills_df view).Pairwise (fun a b : String × Nat => b.2 ≤ a.2) ∧
    (top_skills view).Pairwise (fun a b : String × Nat => b.2 ≤ a.2) ∧
    (top_skills view).Sublist (skills_df view) := by
  refine ⟨?_, rfl, ?_, ?_, value_counts_sorted _, ?_, ?_⟩
  · show ((skills_df view).take 10).length ≤ 10
    exact List.length_take_le _ _
  · intro p hp
    exact (value_counts_mem _ p).mp hp
  · intro k hk
    exact (value_counts_mem _ (k, (all_skills view).count k)).mpr ⟨hk, rfl⟩
  · show ((skills_df view).take 10).Pairwise _
    exact List.Pairwise.sublist (List.take_sublist _ _) (value_counts_sorted _)
  · show ((skills_df view).take 10).Sublist (skills_df view)
    exact List.take_sublist _ _

/-- Witness for C7 amended on a one-row view. -/
theorem top_skills_amended_witness :
    (top_skills [⟨["A", "B"], none⟩]).length ≤ 10 ∧
    ("A", 1) ∈ skills_df [⟨["A", "B"], none⟩] := by
  constructor
  · exact (top_skills_amended [⟨["A", "B"], none⟩]).1
  · have h := (top_skills_amended [⟨["A", "B"], none⟩]).2.2.2.1 "A" (by decide)
    have hc : (all_skills [⟨["A", "B"], none⟩]).count "A" = 1 := by decide
    rw [hc] at h
    exact h

/-- C6 counterexample: pandas `agg(['mean','count'])` counts the
non-missing `avg_salary` values of a group, not the skill occurrences;
a skill occurring 5 times of which one row has an absent salary has
pandas count 4 and is excluded, while the claim (occurrence count 5 at
the minimum-support threshold 5, highest mean) would return it. -/
theorem top_paying_skills_counterexample :
    top_paying_skills
      [⟨["X"], some 10⟩, ⟨["X"], some 10⟩, ⟨["X"], some 10⟩,
        ⟨["X"], some 10⟩, ⟨["X"], none⟩] = [] ∧
    ((explodeSkills
      [⟨["X"], some 10⟩, ⟨["X"], some 10⟩, ⟨["X"], some 10⟩,
        ⟨["X"], some 10⟩, ⟨["X"], none⟩]).map Prod.fst).count "X" = 5 ∧
    (specTopPayingSkills
      [⟨["X"], some 10⟩, ⟨["X"], some 10⟩, ⟨["X"], some 10⟩,
        ⟨["X"], some 10⟩, ⟨["X"], none⟩]).map (fun e => e.skill) = ["X"] := by
  decide

/-- C6 amended: the highest-paying-skills aggregation explodes the
skills, groups by (untrimmed) skill, computes the rounded mean of the
non-absent `avg_salary` values and the count of non-absent `avg_salary`
values per group (not the raw occurrence count, which can only be
larger), excludes every group whose non-absent count is below 5, sorts
descending by the mean, and the chart takes at most the top 10; in
particular every returned skill has occurrence count at least its
group count, hence at least 5. -/
theorem top_paying_skills_amended (view : List AggRow) :
    (top_paying_skills view).length ≤ 10 ∧
    (∀ e ∈ top_paying_skills view,
      5 ≤ e.count ∧
      e.count = (groupSalaries e.skill (explodeSkills view)).length ∧
      e.count ≤ ((explodeSkills view).map Prod.fst).count e.skill ∧
      e.mean = some (round2 ((groupSalaries e.skill (explodeSkills view)).sum /
        ((groupSalaries e.skill (explodeSkills view)).length : ℚ))) ∧
      e.skill ∈ view.flatMap fun r => r.skills) ∧
    (skills_salary_avg view).Pairwise
      (fun a b : SkillSalary => b.mean.getD 0 ≤ a.mean.getD 0) ∧
    (top_paying_skills view).Pairwise
      (fun a b : SkillSalary => b.mean.getD 0 ≤ a.mean.getD 0) ∧
    (top_paying_skills view).Sublist (skills_salary_avg view) := by
  refine ⟨?_, ?_, pairwise_skills_salary_avg view, ?_, ?_⟩
  · show ((skills_salary_avg view).take 10).length ≤ 10
    exact List.length_take_le _ _
  · intro e he
    have he2 : e ∈ skills_salary_avg view :=
      (List.take_sublist 10 (skills_salary_avg view)).subset he
    obtain ⟨h1, h2, h3, h4⟩ := mem_skills_salary_avg view e he2
    refine ⟨h2, h3, ?_, h4, h1⟩
    rw [h3]
    exact groupSalaries_length_le e.skill (explodeSkills view)
  · show ((skills_salary_avg view).take 10).Pairwise _
    exact List.Pairwise.sublist (List.take_sublist _ _)
      (pairwise_skills_salary_avg view)
  · show ((skills_salary_avg view).take 10).Sublist (skills_salary_avg view)
    exact List.take_sublist _ _

/-- Witness for C6 amended on the five-occurrence view (empty result,
length bound by the theorem). -/
theorem top_paying_skills_amended_witness :
    (top_paying_skills
      [⟨["X"], some 10⟩, ⟨["X"], some 10⟩, ⟨["X"], some 10⟩,
        ⟨["X"], some 10⟩, ⟨["X"], none⟩]).length ≤ 10 :=
  (top_paying_skills_amended
    [⟨["X"], some 10⟩, ⟨["X"], some 10⟩, ⟨["X"], some 10⟩,
      ⟨["X"], some 10⟩, ⟨["X"], none⟩]).1

/-- C10: the frequency aggregation strips every flattened skill
occurrence before counting, so the count of a key equals the number of
raw occurrences whose stripped form is that key (occurrences differing
only in surrounding whitespace are pooled under one key); meanwhile the
stored per-row skills column keeps the untrimmed split elements (`A, B`
stores ` B`), and the salary aggregation groups by those raw elements
as-is. -/
theorem skills_trim_inconsistency_spec (view : List AggRow) :
    all_skills view = (view.flatMap fun r => r.skills).map pyStrip ∧
    (∀ k, (all_skills view).count k =
      (view.flatMap fun r => r.skills).countP fun o => decide (pyStrip o = k)) ∧
    skillsList "A, B" = ["A", " B"] ∧
    pyStrip " B" = "B" ∧
    (∀ e ∈ skills_salary_avg view, e.skill ∈ view.flatMap fun r => r.skills) := by
  refine ⟨rfl, ?_, by decide, by decide, ?_⟩
  · intro k
    unfold all_skills
    exact count_map_eq_countP pyStrip _ k
  · intro e he
    exact (mem_skills_salary_avg view e he).1

/-- Witness for C10: one row stores `A`, another ` A`; the frequency
count of the stripped key `A` pools both occurrences. -/
theorem skills_trim_inconsistency_spec_witness :
    (all_skills [⟨["A"], none⟩, ⟨[" A"], none⟩]).count "A" =
      (([⟨["A"], none⟩, ⟨[" A"], none⟩] : List AggRow).flatMap
        fun r => r.skills).countP (fun o => decide (pyStrip o = "A")) ∧
    (all_skills [⟨["A"], none⟩, ⟨[" A"], none⟩]).count "A" = 2 := by
  constructor
  · exact (skills_trim_inconsistency_spec [⟨["A"], none⟩, ⟨[" A"], none⟩]).2.1 "A"
  · decide

/- ================================================================
   Claim theorems: Search Filter (C8).
   ================================================================ -/

theorem toLower_eq_dot (c : Char) (h : c.toLower = '.') : c = '.' := by
  by_cases hc : c.toNat ≥ 65 ∧ c.toNat ≤ 90
  · exfalso
    have h2 : c.toLower = Char.ofNat (c.toNat + 32) := by
      simp only [Char.toLower]
      exact if_pos hc
    rw [h2] at h
    obtain ⟨h65, h90⟩ := hc
    set m := c.toNat with hm
    interval_cases m <;> exact absurd h (by decide)
  · have h2 : c.toLower = c := by
      simp only [Char.toLower]
      exact if_neg hc
    rwa [h2] at h

theorem patCharMatch_congr (p1 p2 c : Char) (h : p1.toLower = p2.toLower) :
    patCharMatch p1 c = patCharMatch p2 c := by
  unfold patCharMatch
  by_cases h1 : p1 = '.'
  · have h2 : p2 = '.' := by
      apply toLower_eq_dot
      rw [← h, h1]
      rfl
    rw [if_pos h1, if_pos h2]
  · have h2 : ¬ p2 = '.' := by
      intro hc
      apply h1
      apply toLower_eq_dot
      rw [h, hc]
      rfl
    rw [if_neg h1, if_neg h2, h]

theorem matchHere_congr :
    ∀ (p1 p2 s : List Char), p1.map Char.toLower = p2.map Char.toLower →
      matchHere p1 s = matchHere p2 s := by
  intro p1
  induction p1 with
  | nil =>
    intro p2 s h
    have h2 : p2 = [] := by
      cases p2 with
      | nil => rfl
      | cons b bs => simp at h
    rw [h2]
  | cons a as ih =>
    intro p2 s h
    cases p2 with
    | nil => simp at h
    | cons b bs =>
      simp only [List.map_cons, List.cons.injEq] at h
      obtain ⟨hab, habs⟩ := h
      cases s with
      | nil => rfl
      | cons c cs =>
        show (patCharMatch a c && matchHere as cs) =
          (patCharMatch b c && matchHere bs cs)
        rw [patCharMatch_congr a b c hab, ih bs cs habs]

theorem reSearch_congr (p1 p2 : List Char)
    (h : p1.map Char.toLower = p2.map Char.toLower) :
    ∀ s : List Char, reSearch p1 s = reSearch p2 s := by
  intro s
  induction s with
  | nil =>
    show matchHere p1 [] = matchHere p2 []
    exact matchHere_congr p1 p2 [] h
  | cons c cs ih =>
    show (matchHere p1 (c :: cs) || reSearch p1 cs) =
      (matchHere p2 (c :: cs) || reSearch p2 cs)
    rw [matchHere_congr p1 p2 (c :: cs) h, ih]

theorem rowSearchMatch_iff (term : String) (r : SearchRow) :
    rowSearchMatch term r = true ↔
      ∃ cell ∈ rowCells r, ∃ s, cell = some s ∧ str_contains term s = true := by
  unfold rowSearchMatch
  rw [List.any_eq_true]
  constructor
  · rintro ⟨oc, hmem, hoc⟩
    cases oc with
    | none => simp at hoc
    | some s => exact ⟨some s, hmem, s, rfl, hoc⟩
  · rintro ⟨cell, hmem, s, rfl, hs⟩
    exact ⟨some s, hmem, hs⟩

/-- C8 counterexample: `str.contains` interprets the term as a regular
expression (the pandas default `regex=True`), so the term `.` matches a
row whose title `abc` does not contain a literal dot, while the claimed
case-insensitive substring test rejects it. -/
theorem search_substring_counterexample :
    search_results "." [⟨some "abc", none, none, none⟩] =
      [⟨some "abc", none, none, none⟩] ∧
    specContainsCI "." "abc" = false := by
  constructor
  · decide
  · decide

/-- C8 amended: an empty/absent term returns the view unchanged;
otherwise a row is kept iff one of the four text cells is present and
matched by the term read as a case-insensitive regular expression
(logical OR across the columns; absent cells never match) — for a term
free of regex metacharacters other than the dot wildcard, the fragment
`str_contains` embeds; the result is a subsequence of the view; and two
such terms equal up to letter case yield identical results. -/
theorem search_spec_amended :
    (∀ view : List SearchRow, search_results "" view = view) ∧
    (∀ (term : String) (view : List SearchRow),
      (search_results term view).Sublist view) ∧
    (∀ (term : String) (view : List SearchRow), ¬ term = "" →
      ∀ r, r ∈ search_results term view ↔ r ∈ view ∧
        ∃ cell ∈ rowCells r, ∃ s, cell = some s ∧
          str_contains term s = true) ∧
    (∀ (t1 t2 : String) (view : List SearchRow), SimplePattern t1 →
      SimplePattern t2 →
      t1.data.map Char.toLower = t2.data.map Char.toLower →
      search_results t1 view = search_results t2 view) := by
  refine ⟨?_, ?_, ?_, ?_⟩
  · intro view
    simp [search_results]
  · intro term view
    unfold search_results
    by_cases h : term = ""
    · rw [if_pos h]
    · rw [if_neg h]
      exact List.filter_sublist _
  · intro term view hterm r
    rw [search_results, if_neg hterm, List.mem_filter, rowSearchMatch_iff]
  · intro t1 t2 view _ _ h
    have hlen : t1.data.length = t2.data.length := by
      have := congrArg List.length h
      simpa using this
    have hemp : (t1 = "") ↔ (t2 = "") := by
      obtain ⟨l1⟩ := t1
      obtain ⟨l2⟩ := t2
      cases l1 with
      | nil =>
        cases l2 with
        | nil => exact Iff.rfl
        | cons b bs => simp at hlen
      | cons a as =>
        cases l2 with
        | nil => simp at hlen
        | cons b bs =>
          constructor <;> intro hx <;> exact absurd (congrArg String.data hx)
            (by simp)
    unfold search_results
    by_cases h1 : t1 = ""
    · rw [if_pos h1, if_pos (hemp.mp h1)]
    · rw [if_neg h1, if_neg fun h2 => h1 (hemp.mpr h2)]
      apply List.filter_congr
      intro r _
      unfold rowSearchMatch
      congr 1
      funext oc
      cases oc with
      | none => rfl
      | some cell =>
        show str_contains t1 cell = str_contains t2 cell
        exact reSearch_congr t1.data t2.data h cell.data

/-- Witness for C8: the identity on the empty term and the
case-insensitivity of a literal term, at concrete inputs. -/
theorem search_spec_amended_witness :
    search_results "" ([⟨some "abc", none, none, none⟩] : List SearchRow) =
      [⟨some "abc", none, none, none⟩] ∧
    search_results "python" [⟨some "Senior Python dev", none, none, none⟩] =
      search_results "PYTHON" [⟨some "Senior Python dev", none, none, none⟩] := by
  constructor
  · exact search_spec_amended.1 [⟨some "abc", none, none, none⟩]
  · exact search_spec_amended.2.2.2 "python" "PYTHON"
      [⟨some "Senior Python dev", none, none, none⟩]
      (by decide) (by decide) (by decide)

/- ================================================================
   Claim theorems: download serialization (C9).
   ================================================================ -/

theorem foldl_string_append (l : List String) :
    ∀ a : String, l.foldl (fun r s => r ++ s) a =
      a ++ l.foldl (fun r s => r ++ s) "" := by
  induction l with
  | nil =>
    intro a
    simp [String.append_empty]
  | cons s l ih =>
    intro a
    rw [List.foldl_cons, List.foldl_cons, ih (a ++ s), ih ("" ++ s),
      String.empty_append, String.append_assoc]

theorem string_join_cons (s : String) (l : List String) :
    String.join (s :: l) = s ++ String.join l := by
  unfold String.join
  rw [List.foldl_cons, foldl_string_append l ("" ++ s), String.empty_append]

theorem to_csv_eq (rows : List CsvRow) :
    to_csv rows = (csvLine csvColumns ++ "\n") ++
      String.join ((rows.map fun r => csvLine (rowCellStrings r)).map
        fun ln => ln ++ "\n") := by
  unfold to_csv
  rw [List.map_cons, string_join_cons]

set_option maxRecDepth 16384 in
theorem firstLine_to_csv (rows : List CsvRow) :
    firstLine (to_csv rows) = csvLine csvColumns := by
  rw [to_csv_eq, String.append_assoc]
  unfold firstLine
  rw [String.data_append]
  have hdr : ∀ x ∈ (csvLine csvColumns).data, (decide (x ≠ '\n')) = true := by
    decide
  have hnl : ("\n" ++ String.join ((rows.map fun r =>
      csvLine (rowCellStrings r)).map fun ln => ln ++ "\n")).data =
      '\n' :: (String.join ((rows.map fun r =>
        csvLine (rowCellStrings r)).map fun ln => ln ++ "\n")).data := by
    rw [String.data_append]
    rfl
  rw [hnl]
  rw [(takeWhile_append_eq (fun c => decide (c ≠ '\n')) (csvLine csvColumns).data
    '\n' _ hdr (by decide)).1]

set_option maxRecDepth 65536 in
/-- C9 counterexample: the download serializes every column of the
loaded frame — its header is the full column list, with the internal
derived column `min_salary` among them — and differs from the
spec-described serialization restricted to the displayed user-facing
column subset. -/
theorem csv_columns_counterexample :
    firstLine (to_csv [⟨"J1", "Dev", "Acme", "Mumbai", "Full-time",
        "51-200", "6-10 LPA", "2-5 years", "Python, SQL", "2024-01-15",
        "2024-02-15", "Remote", "B.Tech", 120, none, none, none, none,
        ⟨2024, 1, 15⟩, ⟨2024, 2, 15⟩, ["Python", " SQL"]⟩]) =
      csvLine csvColumns ∧
    ¬ firstLine (to_csv [⟨"J1", "Dev", "Acme", "Mumbai", "Full-time",
        "51-200", "6-10 LPA", "2-5 years", "Python, SQL", "2024-01-15",
        "2024-02-15", "Remote", "B.Tech", 120, none, none, none, none,
        ⟨2024, 1, 15⟩, ⟨2024, 2, 15⟩, ["Python", " SQL"]⟩]) =
      csvLine displayColumns ∧
    "min_salary" ∈ csvColumns ∧ ¬ "min_salary" ∈ displayColumns ∧
    ¬ to_csv [⟨"J1", "Dev", "Acme", "Mumbai", "Full-time",
        "51-200", "6-10 LPA", "2-5 years", "Python, SQL", "2024-01-15",
        "2024-02-15", "Remote", "B.Tech", 120, none, none, none, none,
        ⟨2024, 1, 15⟩, ⟨2024, 2, 15⟩, ["Python", " SQL"]⟩] =
      specDownloadCsv [⟨"J1", "Dev", "Acme", "Mumbai", "Full-time",
        "51-200", "6-10 LPA", "2-5 years", "Python, SQL", "2024-01-15",
        "2024-02-15", "Remote", "B.Tech", 120, none, none, none, none,
        ⟨2024, 1, 15⟩, ⟨2024, 2, 15⟩, ["Python", " SQL"]⟩] := by
  refine ⟨?_, ?_, by decide, by decide, ?_⟩
  · decide
  · decide
  · decide

/-- C9 amended: the download serializes exactly the current
search-result subset as comma-separated text: a header row naming every
column of the loaded frame (raw and derived — a strict superset of the
displayed user-facing subset, e.g. it contains `min_salary`), then one
record per posting with one field per column. -/
theorem csv_spec_amended (rows : List CsvRow) :
    to_csv rows = (csvLine csvColumns ++ "\n") ++
      String.join ((rows.map fun r => csvLine (rowCellStrings r)).map
        fun ln => ln ++ "\n") ∧
    firstLine (to_csv rows) = csvLine csvColumns ∧
    (rows.map fun r => csvLine (rowCellStrings r)).length = rows.length ∧
    (∀ r : CsvRow, (rowCellStrings r).length = csvColumns.length) ∧
    (∀ c ∈ displayColumns, c ∈ csvColumns) ∧
    "min_salary" ∈ csvColumns ∧ ¬ "min_salary" ∈ displayColumns := by
  refine ⟨to_csv_eq rows, firstLine_to_csv rows, by simp, ?_, by decide,
    by decide, by decide⟩
  intro r
  rfl

/-- Witness for C9 amended on a one-row subset. -/
theorem csv_spec_amended_witness :
    firstLine (to_csv [⟨"J2", "QA", "Acme", "Delhi", "Full-time",
        "51-200", "4-8 LPA", "3 years", "Selenium", "2024-01-16",
        "2024-02-16", "Onsite", "B.Sc", 40, none, none, none, none,
        ⟨2024, 1, 16⟩, ⟨2024, 2, 16⟩, ["Selenium"]⟩]) =
      csvLine csvColumns :=
  (csv_spec_amended [⟨"J2", "QA", "Acme", "Delhi", "Full-time",
    "51-200", "4-8 LPA", "3 years", "Selenium", "2024-01-16",
    "2024-02-16", "Onsite", "B.Sc", 40, none, none, none, none,
    ⟨2024, 1, 16⟩, ⟨2024, 2, 16⟩, ["Selenium"]⟩]).2.1
